import Mathlib

/-
Verification of the gossip-glome-rs node runtime and its reference workloads.

The definitions below are a shallow embedding of the Rust sources:
  * src/src/lib.rs                 - the node runtime (IO facade, pending-request
                                     table, RPC tender, timer registry, handshake)
  * src/src/bin/unique_ids.rs      - the unique-IDs workload
  * src/src/bin/kafka-single-node.rs and kafka-multi-node.rs - the partitioned-log
                                     workload (commit_offsets handling)
  * src/src/bin/txn-kv-two-node.rs - the transactional KV workload
  * src/src/bin/g-counter.rs       - the grow-only counter workload

Machine integers (usize) are modelled as Nat: every value in play (sequence
numbers, offsets, deltas, durations in nanoseconds) stays far below 2^64 in any
run the harness can produce, and no arithmetic in the modelled code can
overflow u64 before exhausting the process lifetime, so the Nat model is exact.
Rust Instant/Duration are modelled as Nat instants/nanosecond counts;
Instant::elapsed() at observation time `now` is `now - issued_at` (the Rust
monotonic clock guarantees now >= issued_at, and Nat subtraction agrees there;
Duration::checked_sub(..).unwrap_or_default() is exactly Nat truncated
subtraction). HashMap / HashSet are modelled as association lists / lists with
set-insert; iteration order in the Rust maps is unspecified, the model fixes
one order, and every theorem below is insensitive to that order.
-/

namespace GossipGlomers

/-! ## Association-list model of `std::collections::HashMap` -/

/-- Lookup of a key in an association list: the value of the first pair whose
key matches (`HashMap::get`; keys are unique in a real map). -/
def lookupA {κ α : Type} [DecidableEq κ] (k : κ) : List (κ × α) → Option α
  | [] => none
  | p :: t => if p.1 = k then some p.2 else lookupA k t

/-- Removal of a key (`HashMap::remove`, drops the entry for `k`). -/
def eraseA {κ α : Type} [DecidableEq κ] (k : κ) : List (κ × α) → List (κ × α)
  | [] => []
  | p :: t => if p.1 = k then eraseA k t else p :: eraseA k t

/-- Insertion (`HashMap::insert`: replaces any existing entry for `k`). -/
def insertA {κ α : Type} [DecidableEq κ] (k : κ) (v : α) (l : List (κ × α)) : List (κ × α) :=
  (k, v) :: eraseA k l

/-- In-place update of every entry for key `k` (used to model
`entry(k)` + mutation of the found value). -/
def updateA {κ α : Type} [DecidableEq κ] (k : κ) (v : α) (l : List (κ × α)) : List (κ × α) :=
  l.map (fun p => if p.1 = k then (k, v) else p)

/-- The keys of an association list. -/
def keysA {κ α : Type} (l : List (κ × α)) : List κ := l.map Prod.fst

/-! ## Data model of src/src/lib.rs -/

/-- Message body (`Body<P>` in lib.rs): `id` is serialized as `msg_id`. -/
structure Body (P : Type) where
  id : Option Nat
  in_reply_to : Option Nat
  payload : P
deriving Repr, DecidableEq

/-- Wire envelope (`Message<P>` in lib.rs): `dst` is serialized as `dest`. -/
structure Message (P : Type) where
  src : String
  dst : String
  body : Body P
deriving Repr, DecidableEq

/-- Pending-request record (`Request<P>` in lib.rs). `timeout` and `issued_at`
are nanosecond counts / instants. -/
structure Request (P : Type) where
  id : Nat
  dst : String
  payload : P
  timeout : Nat
  issued_at : Nat
  retry : Bool
deriving Repr, DecidableEq

/-- The mutable state of the outbound port (`IO<P>` in lib.rs): the sequence
counter and the pending-request table. The stdout handle and cluster state
carry no state relevant to the properties proved here. -/
structure IOState (P : Type) where
  seq : Nat
  pending : List (Nat × Request P)
deriving Repr, DecidableEq

/-- `IO::send` (lib.rs lines 56-84): writes an envelope whose `body.id` is the
current value of `seq`, increments `seq`, and returns the allocated id. The
model returns the allocated id (= the `msg_id` put on the wire) and the new
state. -/
def send {P : Type} (s : IOState P) : Nat × IOState P :=
  (s.seq, ⟨s.seq + 1, s.pending⟩)

/-- `IO::rpc_request` (lib.rs lines 92-113): `send`, then insert a `Request`
record keyed by the allocated id, with `issued_at` the current instant. -/
def rpc_request {P : Type} (now : Nat) (dst : String) (payload : P)
    (timeout : Nat) (retry : Bool) (s : IOState P) : Nat × IOState P :=
  let idAndState := send s
  let id := idAndState.1
  let s1 := idAndState.2
  let r : Request P := ⟨id, dst, payload, timeout, now, retry⟩
  (id, ⟨s1.seq, insertA id r s1.pending⟩)

/-- `IO::rpc_request_with_retry` (lib.rs lines 115-122): `rpc_request` with
`retry = true`. -/
def rpc_request_with_retry {P : Type} (now : Nat) (dst : String) (payload : P)
    (retry_after : Nat) (s : IOState P) : Nat × IOState P :=
  rpc_request now dst payload retry_after true s

/-- `IO::rpc_mark_completed` (lib.rs lines 130-134): if the incoming envelope
has `in_reply_to = some k`, remove entry `k` from the pending table; the Rust
function returns `()` and has no error path, so the model is a total function
on states. -/
def rpc_mark_completed {P : Type} (m : Message P) (s : IOState P) : IOState P :=
  match m.body.in_reply_to with
  | some k => ⟨s.seq, eraseA k s.pending⟩
  | none => s

/-- Modelled from the spec: `IO::rpc_still_pending` is called by
kafka-multi-node.rs and txn-kv-two-node.rs but its definition does not appear
in src/src/lib.rs; per the spec's operation table it is "True iff
`in_reply_to` is present and key is in pending table". -/
def rpc_still_pending {P : Type} (m : Message P) (s : IOState P) : Bool :=
  match m.body.in_reply_to with
  | some k => (lookupA k s.pending).isSome
  | none => false

/-- Whether a pending request has timed out (`r.issued_at.elapsed() >=
r.timeout` in `IO::rpc_tend`, lib.rs line 141). -/
def expiredB {P : Type} (now : Nat) (r : Request P) : Bool :=
  decide (r.timeout ≤ now - r.issued_at)

/-- The body of the `for r in &timedout` loop of `IO::rpc_tend` (lib.rs lines
143-151): remove the snapshot entry's id from the table — bailing out if it is
absent — and, when the removed record has `retry = true`, re-issue it via
`rpc_request_with_retry`. -/
def tendGo {P : Type} (now : Nat) : List (Request P) → IOState P →
    Except String (IOState P)
  | [], s => Except.ok s
  | r :: rest, s =>
    match lookupA r.id s.pending with
    | none => Except.error "this shouldn't happen"
    | some request =>
      let s1 : IOState P := ⟨s.seq, eraseA r.id s.pending⟩
      let s2 := if request.retry then
          (rpc_request_with_retry now request.dst request.payload request.timeout s1).2
        else s1
      tendGo now rest s2

/-- `IO::rpc_tend` (lib.rs lines 136-164): partition the pending records into
timed-out and future ones, process the timed-out ones with `tendGo`, and
return the timed-out snapshot together with the sleep hint
`min (timeout - elapsed)` over the future records (`Duration::MAX` when there
are none, modelled by `durMax`). -/
def durMax : Nat := 18446744073709551615 * 1000000000 + 999999999

def rpc_tend {P : Type} (now : Nat) (s : IOState P) :
    Except String (List (Request P) × Nat × IOState P) :=
  let parts := (s.pending.map Prod.snd).partition (expiredB now)
  let timedout := parts.1
  let future := parts.2
  match tendGo now timedout s with
  | Except.error e => Except.error e
  | Except.ok s' =>
    let sleep := ((future.map (fun r => r.timeout - (now - r.issued_at))).min?).getD durMax
    Except.ok (timedout, sleep, s')

/-- Well-formedness of the outbound-port state, established at creation
(lib.rs lines 210-216: `seq = 0`, empty table) and preserved by every
operation: keys of the pending table are distinct, each stored record's `id`
equals its key, and every key is an already-allocated sequence number
(strictly below `seq`). -/
def WFP {P : Type} (s : IOState P) : Prop :=
  (keysA s.pending).Nodup ∧ ∀ p ∈ s.pending, p.2.id = p.1 ∧ p.1 < s.seq

instance {P : Type} (s : IOState P) : Decidable (WFP s) := by
  unfold WFP
  infer_instance

/-! ## Timer registry (lib.rs lines 375-427) and dispatch-loop wait -/

/-- `TimerRegistration<T>` (lib.rs lines 375-380). -/
structure TimerReg (τ : Type) where
  timer : τ
  interval : Nat
  last_fire : Nat
deriving Repr, DecidableEq

/-- `Timers::fire` (lib.rs lines 409-426): walk the registrations; a
registration whose elapsed time reaches its interval fires (its tag event is
sent and `last_fire` is reset to `now`) and folds its interval into the sleep
accumulator with `cmp::min`; a registration that has not yet fired overwrites
the accumulator with `interval - elapsed`. Returns the fired tags, the updated
registrations and the final accumulator. -/
def timersFire {τ : Type} (now : Nat) (regs : List (TimerReg τ)) :
    List τ × List (TimerReg τ) × Nat :=
  regs.foldl (fun acc reg =>
    let elapsed := now - reg.last_fire
    if reg.interval ≤ elapsed then
      (acc.1 ++ [reg.timer], acc.2.1 ++ [⟨reg.timer, reg.interval, now⟩],
        min acc.2.2 reg.interval)
    else
      (acc.1, acc.2.1 ++ [reg], reg.interval - elapsed))
    ([], [], durMax)

/-- `TICK_DURATION` (lib.rs line 180), in nanoseconds: the 1-second hard cap. -/
def TICK_DURATION : Nat := 1000000000

/-- The wait bound computed by `Node::run` (lib.rs lines 288-297):
`tick_timeout = min (min tender_hint TICK_DURATION) timer_hint`. -/
def tickTimeout (tenderHint timerHint : Nat) : Nat :=
  min (min tenderHint TICK_DURATION) timerHint

/-! ## Handshake and emitted msg_ids (lib.rs `Node::init`, lines 188-243) -/

/-- The runtime-owned init payload (lib.rs lines 349-358). -/
inductive InitPayload where
  | Init (node_id : String) (node_ids : List String)
  | InitOk
deriving Repr, DecidableEq

/-- `IO::rpc_reply_to` (lib.rs lines 124-128): a plain `send` to the incoming
envelope's source with `in_reply_to` set; destination and reply target do not
affect the port state, so state-wise it is `send`. -/
def rpc_reply_to {P : Type} (_m : Message P) (_reply : P) (s : IOState P) :
    Nat × IOState P :=
  send s

/-- The node's own IO facade as built by `Node::init` (lib.rs lines 210-216):
`seq = 0`, empty pending table. The `init_ok` reply is NOT sent through this
facade. -/
def ioAfterInit (P : Type) : IOState P := ⟨0, []⟩

/-- The separate facade `init_io` built by `Node::init` (lib.rs lines
232-238), also with `seq = 0`, used once for the `init_ok` reply. -/
def initIoStart : IOState InitPayload := ⟨0, []⟩

/-- The msg_ids allocated by `n` successive sends through one IO facade. -/
def sendIds {P : Type} (s : IOState P) : Nat → List Nat
  | 0 => []
  | n + 1 => (send s).1 :: sendIds (send s).2 n

/-- The msg_ids emitted on stdout over a run of the process, in order: first
the `init_ok` reply sent through `init_io` (lib.rs line 240), then the ids of
the `n` sends the handler and tender subsequently perform through the node's
own facade. -/
def emittedIds (P : Type) (initMsg : Message InitPayload) (n : Nat) : List Nat :=
  (rpc_reply_to initMsg InitPayload.InitOk initIoStart).1 :: sendIds (ioAfterInit P) n

/-! ## Unique-IDs workload (src/src/bin/unique_ids.rs) -/

inductive UIPayload where
  | Generate
  | GenerateOk (id : String)
deriving Repr, DecidableEq

/-- unique_ids.rs lines 33-38: on `generate`, format `"{node_id}-{io.seq}"`,
reply with `generate_ok { id }` (the reply's `send` advances `seq`). -/
def uniqueIdsGenerate (node_id : String) (input : Message UIPayload)
    (s : IOState UIPayload) : UIPayload × IOState UIPayload :=
  let id := node_id ++ "-" ++ toString s.seq
  let reply := UIPayload.GenerateOk id
  (reply, (rpc_reply_to input reply s).2)

/-! ## Kafka workload: commit_offsets (kafka-single-node.rs / kafka-multi-node.rs) -/

/-- kafka-single-node.rs lines 101-104: each incoming `(key, offset)` pair is
stored with `HashMap::insert`, overwriting whatever was there. -/
def commitOffsetsSingle (store : List (String × Nat))
    (offsets : List (String × Nat)) : List (String × Nat) :=
  offsets.foldl (fun st kv => insertA kv.1 kv.2 st) store

/-- kafka-multi-node.rs lines 189-201: per key, an occupied entry is replaced
by `max current incoming`; a vacant entry stores the incoming value. -/
def commitOffsetsMulti (store : List (String × Nat))
    (offsets : List (String × Nat)) : List (String × Nat) :=
  offsets.foldl (fun st kv =>
    match lookupA kv.1 st with
    | some c => insertA kv.1 (Nat.max c kv.2) st
    | none => insertA kv.1 kv.2 st) store

/-! ## Transactional KV workload (src/src/bin/txn-kv-two-node.rs) -/

/-- A transaction operation (`Op` in txn-kv-two-node.rs): on the wire a triple
`["r"|"w", key, value-or-null]`. -/
inductive Op where
  | read (key : Nat) (value : Option Nat)
  | write (key : Nat) (value : Nat)
deriving Repr, DecidableEq

/-- txn-kv-two-node.rs lines 82-107: process the ops of a `txn` request in
order; a read pushes `["r", key, current value]` onto the result, a write
updates the store immediately and pushes itself onto both the result and the
write subset. Returns (result, writes, final store). -/
def txnGo (store : List (Nat × Nat)) :
    List Op → List Op × List Op × List (Nat × Nat)
  | [] => ([], [], store)
  | op :: rest =>
    match op with
    | Op.read k _ =>
      let r := txnGo store rest
      (Op.read k (lookupA k store) :: r.1, r.2.1, r.2.2)
    | Op.write k v =>
      let r := txnGo (insertA k v store) rest
      (Op.write k v :: r.1, Op.write k v :: r.2.1, r.2.2)

/-- The effect of a single op on the store (reads leave it unchanged, writes
update it), used to state what a read at position `i` observes. -/
def applyOp (store : List (Nat × Nat)) : Op → List (Nat × Nat)
  | Op.read _ _ => store
  | Op.write k v => insertA k v store

/-- The expected answer for the op at position `i` of a transaction: a read
reports the value its key has after the earlier ops were applied to the
store; a write is echoed unchanged. -/
def opResult (store : List (Nat × Nat)) (ops : List Op) (i : Nat) : Op → Op
  | Op.read key _ => Op.read key (lookupA key ((ops.take i).foldl applyOp store))
  | Op.write key w => Op.write key w

/-! ## Grow-only counter workload (src/src/bin/g-counter.rs) -/

/-- `HashSet::insert` on a list-modelled set: add the pair unless present. -/
def setInsert (p : Nat × Nat) (s : List (Nat × Nat)) : List (Nat × Nat) :=
  if p ∈ s then s else p :: s

/-- g-counter.rs lines 43-47 (`GCounter::add`): insert the observation
`(id, value)` into the origin node's set, creating the set when absent. -/
def gcAdd (st : List (String × List (Nat × Nat))) (node : String)
    (id v : Nat) : List (String × List (Nat × Nat)) :=
  match lookupA node st with
  | some counter => updateA node (setInsert (id, v) counter) st
  | none => st ++ [(node, setInsert (id, v) [])]

/-- g-counter.rs lines 49-57 (`GCounter::total`): the sum of the value
component of every observation of every node. -/
def gcTotal (st : List (String × List (Nat × Nat))) : Nat :=
  (st.map (fun p => (p.2.map Prod.snd).sum)).sum

/-! ## Concrete inputs used by witnesses and counterexamples -/

def c1InitMsg : Message InitPayload :=
  ⟨"c1", "n1", ⟨some 1, none, InitPayload.Init "n1" ["n1"]⟩⟩

def c2Req : Request Unit := ⟨1, "n3", (), 5, 0, true⟩

def c2State : IOState Unit := ⟨2, [(1, c2Req)]⟩

def c3Regs : List (TimerReg Unit) := [⟨(), 10, 0⟩, ⟨(), 100, 9⟩]

def c5Msg : Message Unit := ⟨"n1", "n2", ⟨some 0, some 5, ()⟩⟩

def c6Msg1 : Message UIPayload := ⟨"c1", "n2", ⟨some 2, none, UIPayload.Generate⟩⟩

def c6Msg2 : Message UIPayload := ⟨"c1", "n2", ⟨some 3, none, UIPayload.Generate⟩⟩

def c8Ops : List Op := [Op.write 1 5, Op.read 1 none, Op.read 2 none]

section AssocLemmas

variable {κ α : Type} [DecidableEq κ]

theorem lookupA_eq_none_iff {k : κ} {l : List (κ × α)} :
    lookupA k l = none ↔ ∀ p ∈ l, p.1 ≠ k := by
  induction l with
  | nil => simp [lookupA]
  | cons p t ih =>
    by_cases h : p.1 = k <;> simp [lookupA, h, ih]

theorem eraseA_sublist (k : κ) (l : List (κ × α)) : (eraseA k l).Sublist l := by
  induction l with
  | nil => simp [eraseA]
  | cons p t ih =>
    by_cases h : p.1 = k
    · simpa [eraseA, h] using ih.cons p
    · simpa [eraseA, h] using ih.cons₂ p

theorem mem_eraseA {k : κ} {l : List (κ × α)} {p : κ × α}
    (h : p ∈ eraseA k l) : p ∈ l ∧ p.1 ≠ k := by
  induction l with
  | nil => simp [eraseA] at h
  | cons q t ih =>
    by_cases hq : q.1 = k
    · simp only [eraseA, if_pos hq] at h
      exact ⟨List.mem_cons_of_mem _ (ih h).1, (ih h).2⟩
    · simp only [eraseA, if_neg hq] at h
      rcases List.mem_cons.mp h with he | h'
      · exact ⟨List.mem_cons.mpr (Or.inl he), by rw [he]; exact hq⟩
      · exact ⟨List.mem_cons_of_mem _ (ih h').1, (ih h').2⟩

theorem lookupA_erase_self {k : κ} {l : List (κ × α)} :
    lookupA k (eraseA k l) = none := by
  rw [lookupA_eq_none_iff]
  intro p hp
  exact (mem_eraseA hp).2

theorem lookupA_erase_ne {k k' : κ} {l : List (κ × α)} (h : k' ≠ k) :
    lookupA k' (eraseA k l) = lookupA k' l := by
  induction l with
  | nil => rfl
  | cons p t ih =>
    by_cases hp : p.1 = k
    · have hk' : p.1 ≠ k' := by rw [hp]; exact Ne.symm h
      simp only [eraseA, if_pos hp, lookupA, if_neg hk']
      exact ih
    · by_cases hq : p.1 = k'
      · simp only [eraseA, if_neg hp, lookupA, if_pos hq]
      · simp only [eraseA, if_neg hp, lookupA, if_neg hq]
        exact ih

theorem lookupA_insert_self {k : κ} {v : α} {l : List (κ × α)} :
    lookupA k (insertA k v l) = some v := by
  simp [insertA, lookupA]

theorem lookupA_insert_ne {k k' : κ} {v : α} {l : List (κ × α)} (h : k' ≠ k) :
    lookupA k' (insertA k v l) = lookupA k' l := by
  have : k ≠ k' := Ne.symm h
  simp [insertA, lookupA, this, lookupA_erase_ne h]

theorem lookupA_of_mem {l : List (κ × α)} {p : κ × α}
    (hnd : (keysA l).Nodup) (hp : p ∈ l) : lookupA p.1 l = some p.2 := by
  induction l with
  | nil => cases hp
  | cons q t ih =>
    simp only [keysA, List.map_cons, List.nodup_cons] at hnd
    rcases List.mem_cons.mp hp with he | hp'
    · rw [← he]
      simp [lookupA]
    · have hne : q.1 ≠ p.1 := by
        intro e
        exact hnd.1 (e ▸ List.mem_map_of_mem Prod.fst hp')
      simp only [lookupA, if_neg hne]
      exact ih hnd.2 hp'

theorem mem_of_lookupA {l : List (κ × α)} {k : κ} {v : α}
    (h : lookupA k l = some v) : (k, v) ∈ l := by
  induction l with
  | nil => simp [lookupA] at h
  | cons p t ih =>
    by_cases hp : p.1 = k
    · simp only [lookupA, if_pos hp, Option.some.injEq] at h
      have hpv : p = (k, v) := by
        cases p with
        | mk a b =>
          simp only at hp h
          simp [hp, h]
      rw [← hpv]
      exact List.mem_cons_self p t
    · simp only [lookupA, if_neg hp] at h
      exact List.mem_cons_of_mem _ (ih h)

theorem nodup_keys_eraseA {k : κ} {l : List (κ × α)}
    (h : (keysA l).Nodup) : (keysA (eraseA k l)).Nodup := by
  exact (List.Sublist.map Prod.fst (eraseA_sublist k l)).nodup h

theorem nodup_keys_insertA {k : κ} {v : α} {l : List (κ × α)}
    (h : (keysA l).Nodup) : (keysA (insertA k v l)).Nodup := by
  simp only [insertA, keysA, List.map_cons, List.nodup_cons]
  refine ⟨?_, nodup_keys_eraseA h⟩
  intro hk
  rcases List.mem_map.mp hk with ⟨p, hp, he⟩
  exact (mem_eraseA hp).2 he

theorem lookupA_append_absent {l : List (κ × α)} {k : κ} {v : α}
    (h : lookupA k l = none) : lookupA k (l ++ [(k, v)]) = some v := by
  induction l with
  | nil => simp [lookupA]
  | cons p t ih =>
    by_cases hp : p.1 = k
    · simp [lookupA, hp] at h
    · simp only [lookupA, if_neg hp] at h ⊢
      exact ih h

theorem lookupA_updateA_self {l : List (κ × α)} {k : κ} {v w : α}
    (h : lookupA k l = some w) : lookupA k (updateA k v l) = some v := by
  induction l with
  | nil => simp [lookupA] at h
  | cons p t ih =>
    by_cases hp : p.1 = k
    · simp [updateA, lookupA, hp]
    · simp only [lookupA, if_neg hp] at h
      simp only [updateA, List.map_cons, if_neg hp, lookupA]
      exact ih h

end AssocLemmas

/-! ## Invariant lemmas about the outbound port -/

theorem wfp_lookup {P : Type} {s : IOState P} (h : WFP s) {k : Nat} {r : Request P}
    (hl : lookupA k s.pending = some r) : r.id = k ∧ k < s.seq :=
  h.2 (k, r) (mem_of_lookupA hl)

theorem wfp_erase {P : Type} {s : IOState P} (h : WFP s) (k : Nat) :
    WFP (⟨s.seq, eraseA k s.pending⟩ : IOState P) := by
  refine ⟨nodup_keys_eraseA h.1, ?_⟩
  intro p hp
  exact h.2 p (mem_eraseA hp).1

theorem rpc_request_eq {P : Type} (now : Nat) (dst : String) (payload : P)
    (timeout : Nat) (retry : Bool) (s : IOState P) :
    rpc_request now dst payload timeout retry s =
      (s.seq, ⟨s.seq + 1,
        insertA s.seq ⟨s.seq, dst, payload, timeout, now, retry⟩ s.pending⟩) := rfl

theorem wfp_rpc_request {P : Type} {s : IOState P} (h : WFP s) (now : Nat)
    (dst : String) (payload : P) (timeout : Nat) (retry : Bool) :
    WFP (rpc_request now dst payload timeout retry s).2 := by
  rw [rpc_request_eq]
  refine ⟨nodup_keys_insertA h.1, ?_⟩
  intro p hp
  rcases List.mem_cons.mp hp with he | hp'
  · rw [he]
    exact ⟨rfl, Nat.lt_succ_self _⟩
  · have := h.2 p (mem_eraseA hp').1
    exact ⟨this.1, Nat.lt_succ_of_lt this.2⟩

theorem tendGo_cons_found {P : Type} {now : Nat} {r : Request P}
    {rest : List (Request P)} {s : IOState P} {req : Request P}
    (h : lookupA r.id s.pending = some req) :
    tendGo now (r :: rest) s =
      tendGo now rest (if req.retry then
          (rpc_request_with_retry now req.dst req.payload req.timeout
            ⟨s.seq, eraseA r.id s.pending⟩).2
        else ⟨s.seq, eraseA r.id s.pending⟩) := by
  simp only [tendGo, h]

/-- Inductive specification of the `for r in &timedout` loop of
`IO::rpc_tend`: when every snapshot entry is present in the table under its
own id and those ids are distinct, the loop (a) cannot hit the `bail!` branch,
(b) preserves well-formedness and never decreases `seq`, (c) removes every
snapshot id, (d) re-issues each retryable snapshot entry under a fresh id with
the same destination, payload and timeout and `issued_at = now`, (e) creates
no other new entries, and (f) leaves entries whose key is no snapshot id
untouched. -/
theorem tendGo_spec {P : Type} (now : Nat) (todo : List (Request P)) (s : IOState P)
    (hWF : WFP s)
    (hmem : ∀ r ∈ todo, lookupA r.id s.pending = some r)
    (hnd : (todo.map Request.id).Nodup) :
    ∃ s', tendGo now todo s = Except.ok s' ∧
      WFP s' ∧
      s.seq ≤ s'.seq ∧
      (∀ r ∈ todo, lookupA r.id s'.pending = none) ∧
      (∀ r ∈ todo, r.retry = true → ∃ k', s.seq ≤ k' ∧
          lookupA k' s'.pending = some ⟨k', r.dst, r.payload, r.timeout, now, true⟩) ∧
      (∀ k' r', lookupA k' s'.pending = some r' →
          lookupA k' s.pending = some r' ∨
          (s.seq ≤ k' ∧ r'.retry = true ∧ r'.issued_at = now ∧
           ∃ rt ∈ todo, rt.retry = true ∧ r'.dst = rt.dst ∧ r'.payload = rt.payload ∧
             r'.timeout = rt.timeout)) ∧
      (∀ k' r', lookupA k' s.pending = some r' → (∀ rt ∈ todo, rt.id ≠ k') →
          lookupA k' s'.pending = some r') := by
  induction todo generalizing s with
  | nil =>
    refine ⟨s, rfl, hWF, Nat.le_refl _, ?_, ?_, ?_, ?_⟩
    · intro r hr; cases hr
    · intro r hr; cases hr
    · intro k' r' h; exact Or.inl h
    · intro k' r' h _; exact h
  | cons r rest ih =>
    have hr : lookupA r.id s.pending = some r := hmem r (List.mem_cons_self r rest)
    have hrlt : r.id < s.seq := (wfp_lookup hWF hr).2
    have hndr : r.id ∉ rest.map Request.id := (List.nodup_cons.mp hnd).1
    have hnd' : (rest.map Request.id).Nodup := (List.nodup_cons.mp hnd).2
    -- the state after removing r.id
    set s1 : IOState P := ⟨s.seq, eraseA r.id s.pending⟩ with hs1
    have hWF1 : WFP s1 := wfp_erase hWF r.id
    -- the state after the optional re-issue
    set s2 : IOState P := if r.retry then
        (rpc_request_with_retry now r.dst r.payload r.timeout s1).2 else s1 with hs2
    have hstep : tendGo now (r :: rest) s = tendGo now rest s2 := tendGo_cons_found hr
    have hWF2 : WFP s2 := by
      rw [hs2]
      by_cases hret : r.retry
      · rw [if_pos hret]
        exact wfp_rpc_request hWF1 now r.dst r.payload r.timeout true
      · rw [if_neg hret]
        exact hWF1
    have hseq2 : s2.seq = if r.retry then s.seq + 1 else s.seq := by
      rw [hs2]
      by_cases hret : r.retry
      · rw [if_pos hret, if_pos hret]
        rfl
      · rw [if_neg hret, if_neg hret]
    have hseqle : s.seq ≤ s2.seq := by
      rw [hseq2]
      by_cases hret : r.retry
      · rw [if_pos hret]; exact Nat.le_succ _
      · rw [if_neg hret]
    -- lookups in s2 at keys strictly below s.seq see the erased table
    have hlook2_lt : ∀ k, k < s.seq →
        lookupA k s2.pending = lookupA k (eraseA r.id s.pending) := by
      intro k hk
      rw [hs2]
      by_cases hret : r.retry
      · rw [if_pos hret]
        show lookupA k (insertA s1.seq _ s1.pending) = _
        rw [lookupA_insert_ne (Nat.ne_of_lt hk)]
      · rw [if_neg hret]
    have hmem2 : ∀ rt ∈ rest, lookupA rt.id s2.pending = some rt := by
      intro rt hrt
      have h0 : lookupA rt.id s.pending = some rt := hmem rt (List.mem_cons_of_mem _ hrt)
      have hlt : rt.id < s.seq := (wfp_lookup hWF h0).2
      have hne : rt.id ≠ r.id := by
        intro e
        exact hndr (e ▸ List.mem_map_of_mem Request.id hrt)
      rw [hlook2_lt rt.id hlt, lookupA_erase_ne hne]
      exact h0
    obtain ⟨s', hrun, hWF', hle', hgone', hreissue', hchar', hpres'⟩ :=
      ih s2 hWF2 hmem2 hnd'
    refine ⟨s', by rw [hstep]; exact hrun, hWF', Nat.le_trans hseqle hle', ?_, ?_, ?_, ?_⟩
    · -- (c) every snapshot id is gone
      intro rr hrr
      rcases List.mem_cons.mp hrr with he | hrr'
      · subst he
        have h2 : lookupA rr.id s2.pending = none := by
          rw [hlook2_lt rr.id hrlt]
          exact lookupA_erase_self
        cases hfin : lookupA rr.id s'.pending with
        | none => rfl
        | some v =>
          rcases hchar' rr.id v hfin with hin2 | ⟨hge, _⟩
          · rw [h2] at hin2; cases hin2
          · exfalso
            omega
      · exact hgone' rr hrr'
    · -- (d) retryable snapshot entries are re-issued fresh
      intro rr hrr hret
      rcases List.mem_cons.mp hrr with he | hrr'
      · subst he
        refine ⟨s.seq, Nat.le_refl _, ?_⟩
        have h2 : lookupA s.seq s2.pending =
            some ⟨s.seq, rr.dst, rr.payload, rr.timeout, now, true⟩ := by
          rw [hs2, if_pos hret]
          show lookupA s.seq (insertA s1.seq _ s1.pending) = _
          exact lookupA_insert_self
        refine hpres' s.seq _ h2 ?_
        intro rt hrt
        have hlt : rt.id < s.seq := (wfp_lookup hWF (hmem rt (List.mem_cons_of_mem _ hrt))).2
        exact Nat.ne_of_lt hlt
      · obtain ⟨k', hk'ge, hk'⟩ := hreissue' rr hrr' hret
        exact ⟨k', Nat.le_trans hseqle hk'ge, hk'⟩
    · -- (e) no other new entries
      intro k' r' hfin
      rcases hchar' k' r' hfin with hin2 | ⟨hge, hret', hiss', rt, hrt, hprops⟩
      · -- the entry was already in s2: peel the optional insert and the erase
        by_cases hret : r.retry
        · rw [hs2, if_pos hret] at hin2
          have hin3 : lookupA k' (insertA s.seq
              (⟨s.seq, r.dst, r.payload, r.timeout, now, true⟩ : Request P)
              (eraseA r.id s.pending)) = some r' := hin2
          by_cases hk : k' = s.seq
          · rw [hk, lookupA_insert_self] at hin3
            refine Or.inr ⟨?_, ?_, ?_, r, List.mem_cons_self r rest, hret, ?_⟩
            · omega
            · cases hin3; rfl
            · cases hin3; rfl
            · cases hin3; exact ⟨rfl, rfl, rfl⟩
          · rw [lookupA_insert_ne hk] at hin3
            by_cases hk2 : k' = r.id
            · rw [hk2, lookupA_erase_self] at hin3
              cases hin3
            · rw [lookupA_erase_ne hk2] at hin3
              exact Or.inl hin3
        · rw [hs2, if_neg hret] at hin2
          have hin3 : lookupA k' (eraseA r.id s.pending) = some r' := hin2
          by_cases hk2 : k' = r.id
          · rw [hk2, lookupA_erase_self] at hin3
            cases hin3
          · rw [lookupA_erase_ne hk2] at hin3
            exact Or.inl hin3
      · exact Or.inr ⟨Nat.le_trans hseqle hge, hret', hiss',
          rt, List.mem_cons_of_mem _ hrt, hprops⟩
    · -- (f) untouched entries survive
      intro k' r' h0 hno
      have hne : k' ≠ r.id := fun e => hno r (List.mem_cons_self r rest) e.symm
      have hlt : k' < s.seq := (wfp_lookup hWF h0).2
      have h2 : lookupA k' s2.pending = some r' := by
        rw [hlook2_lt k' hlt, lookupA_erase_ne hne]
        exact h0
      exact hpres' k' r' h2 (fun rt hrt => hno rt (List.mem_cons_of_mem _ hrt))

theorem rpc_tend_eq {P : Type} (now : Nat) (s : IOState P) :
    rpc_tend now s =
      match tendGo now ((s.pending.map Prod.snd).filter (expiredB now)) s with
      | Except.error e => Except.error e
      | Except.ok s' =>
        Except.ok ((s.pending.map Prod.snd).filter (expiredB now),
          ((((s.pending.map Prod.snd).filter (not ∘ expiredB now)).map
            (fun r => r.timeout - (now - r.issued_at))).min?).getD durMax, s') := by
  simp only [rpc_tend, List.partition_eq_filter_filter]

theorem snapshot_lookup {P : Type} {now : Nat} {s : IOState P} (h : WFP s)
    {r : Request P} (hr : r ∈ (s.pending.map Prod.snd).filter (expiredB now)) :
    lookupA r.id s.pending = some r := by
  have hr' : r ∈ s.pending.map Prod.snd := List.mem_of_mem_filter hr
  obtain ⟨p, hp, he⟩ := List.mem_map.mp hr'
  have hid : p.2.id = p.1 := (h.2 p hp).1
  have := lookupA_of_mem h.1 hp
  rw [← he, hid]
  exact this

theorem snapshot_nodup {P : Type} {now : Nat} {s : IOState P} (h : WFP s) :
    (((s.pending.map Prod.snd).filter (expiredB now)).map Request.id).Nodup := by
  have h1 : (((s.pending.map Prod.snd).filter (expiredB now)).map Request.id).Sublist
      ((s.pending.map Prod.snd).map Request.id) :=
    List.Sublist.map Request.id (List.filter_sublist _)
  have h2 : (s.pending.map Prod.snd).map Request.id = keysA s.pending := by
    rw [List.map_map]
    exact List.map_congr_left (fun p hp => (h.2 p hp).1)
  exact h1.nodup (h2 ▸ h.1)

/-- One pass of `IO::rpc_tend` on a well-formed state: it returns `Ok`, the
returned expired set is exactly the timed-out snapshot, well-formedness is
preserved, every timed-out id is evicted, every retryable timed-out record is
re-issued under a fresh id with the same destination/payload/timeout and
`issued_at = now`, no other entry is created, and entries that did not time
out are untouched. -/
theorem rpc_tend_spec {P : Type} (now : Nat) (s : IOState P) (h : WFP s) :
    ∃ timedout sleep s', rpc_tend now s = Except.ok (timedout, sleep, s') ∧
      timedout = (s.pending.map Prod.snd).filter (expiredB now) ∧
      WFP s' ∧ s.seq ≤ s'.seq ∧
      (∀ r ∈ timedout, lookupA r.id s'.pending = none) ∧
      (∀ r ∈ timedout, r.retry = true → ∃ k', s.seq ≤ k' ∧
          lookupA k' s'.pending = some ⟨k', r.dst, r.payload, r.timeout, now, true⟩) ∧
      (∀ k' r', lookupA k' s'.pending = some r' →
          lookupA k' s.pending = some r' ∨
          (s.seq ≤ k' ∧ r'.retry = true ∧ r'.issued_at = now ∧
           ∃ rt ∈ timedout, rt.retry = true ∧ r'.dst = rt.dst ∧ r'.payload = rt.payload ∧
             r'.timeout = rt.timeout)) ∧
      (∀ k' r', lookupA k' s.pending = some r' → (∀ rt ∈ timedout, rt.id ≠ k') →
          lookupA k' s'.pending = some r') := by
  obtain ⟨s', hrun, hWF', hle', hgone', hreissue', hchar', hpres'⟩ :=
    tendGo_spec now ((s.pending.map Prod.snd).filter (expiredB now)) s h
      (fun r hr => snapshot_lookup h hr) (snapshot_nodup h)
  refine ⟨(s.pending.map Prod.snd).filter (expiredB now),
    ((((s.pending.map Prod.snd).filter (not ∘ expiredB now)).map
      (fun r => r.timeout - (now - r.issued_at))).min?).getD durMax, s', ?_, rfl,
    hWF', hle', hgone', hreissue', hchar', hpres'⟩
  rw [rpc_tend_eq, hrun]

/-! ## Further helper lemmas -/

theorem mem_keysA_iff {κ α : Type} [DecidableEq κ] {k : κ} {l : List (κ × α)} :
    k ∈ keysA l ↔ ∃ v, lookupA k l = some v := by
  induction l with
  | nil => simp [keysA, lookupA]
  | cons p t ih =>
    by_cases hp : p.1 = k
    · constructor
      · intro _
        exact ⟨p.2, by simp [lookupA, hp]⟩
      · intro _
        exact List.mem_cons.mpr (Or.inl hp.symm)
    · constructor
      · intro hm
        have hm' : k ∈ keysA t := by
          rcases List.mem_cons.mp hm with he | h2
          · exact absurd he.symm hp
          · exact h2
        obtain ⟨v, hv⟩ := ih.mp hm'
        refine ⟨v, ?_⟩
        simp only [lookupA, if_neg hp]
        exact hv
      · rintro ⟨v, hv⟩
        simp only [lookupA, if_neg hp] at hv
        exact List.mem_cons_of_mem _ (ih.mpr ⟨v, hv⟩)

theorem eraseA_eq_self_of_absent {κ α : Type} [DecidableEq κ] {k : κ}
    {l : List (κ × α)} (h : lookupA k l = none) : eraseA k l = l := by
  induction l with
  | nil => rfl
  | cons p t ih =>
    by_cases hp : p.1 = k
    · simp [lookupA, hp] at h
    · simp only [lookupA, if_neg hp] at h
      simp only [eraseA, if_neg hp]
      rw [ih h]

theorem eraseA_idem {κ α : Type} [DecidableEq κ] (k : κ) (l : List (κ × α)) :
    eraseA k (eraseA k l) = eraseA k l :=
  eraseA_eq_self_of_absent lookupA_erase_self

theorem sendIds_eq {P : Type} (n : Nat) : ∀ (k : Nat) (pend : List (Nat × Request P)),
    sendIds (⟨k, pend⟩ : IOState P) n = List.range' k n := by
  induction n with
  | zero => intro k pend; rfl
  | succ n ih =>
    intro k pend
    simp only [sendIds, send]
    rw [List.range'_succ]
    exact congrArg (List.cons k) (ih (k + 1) pend)

theorem pairwise_lt_range' (n : Nat) : ∀ s : Nat, (List.range' s n).Pairwise (· < ·) := by
  induction n with
  | zero => intro s; simp
  | succ n ih =>
    intro s
    rw [List.range'_succ, List.pairwise_cons]
    exact ⟨fun x hx => Nat.lt_of_succ_le (List.mem_range'_1.mp hx).1, ih (s + 1)⟩

theorem commitOffsetsSingle_absent {store offsets : List (String × Nat)} {k : String}
    (h : ∀ p ∈ offsets, p.1 ≠ k) :
    lookupA k (commitOffsetsSingle store offsets) = lookupA k store := by
  induction offsets generalizing store with
  | nil => rfl
  | cons q rest ih =>
    have hstep : commitOffsetsSingle store (q :: rest) =
        commitOffsetsSingle (insertA q.1 q.2 store) rest := rfl
    rw [hstep, ih (fun p hp => h p (List.mem_cons_of_mem _ hp)),
      lookupA_insert_ne (Ne.symm (h q (List.mem_cons_self q rest)))]

theorem commitOffsetsMulti_cons (store : List (String × Nat)) (q : String × Nat)
    (rest : List (String × Nat)) :
    commitOffsetsMulti store (q :: rest) =
      commitOffsetsMulti (match lookupA q.1 store with
        | some c => insertA q.1 (Nat.max c q.2) store
        | none => insertA q.1 q.2 store) rest := rfl

theorem commitOffsetsMulti_absent {store offsets : List (String × Nat)} {k : String}
    (h : ∀ p ∈ offsets, p.1 ≠ k) :
    lookupA k (commitOffsetsMulti store offsets) = lookupA k store := by
  induction offsets generalizing store with
  | nil => rfl
  | cons q rest ih =>
    have hrest : ∀ p ∈ rest, p.1 ≠ k := fun p hp => h p (List.mem_cons_of_mem _ hp)
    have hq : k ≠ q.1 := Ne.symm (h q (List.mem_cons_self q rest))
    rw [commitOffsetsMulti_cons]
    cases hl : lookupA q.1 store with
    | some c =>
      simp only [hl]
      rw [ih hrest, lookupA_insert_ne hq]
    | none =>
      simp only [hl]
      rw [ih hrest, lookupA_insert_ne hq]

theorem mem_setInsert_self (p : Nat × Nat) (s : List (Nat × Nat)) :
    p ∈ setInsert p s := by
  by_cases h : p ∈ s <;> simp [setInsert, h]

theorem setInsert_of_mem {p : Nat × Nat} {s : List (Nat × Nat)} (h : p ∈ s) :
    setInsert p s = s := by
  simp [setInsert, h]

theorem updateA_idem {κ α : Type} [DecidableEq κ] (k : κ) (v : α) (l : List (κ × α)) :
    updateA k v (updateA k v l) = updateA k v l := by
  unfold updateA
  rw [List.map_map]
  apply List.map_congr_left
  intro p _
  by_cases hk : p.1 = k <;> simp [Function.comp, hk]

/-! ## Claim theorems -/

/-- C1, counterexample: with one handler send after the handshake, the process
emits msg_ids `[0, 0]` — the `init_ok` reply is sent through the separate
`init_io` facade whose counter is dropped, and the node's own facade starts
again at 0 — so the emitted ids are not strictly increasing as claimed. -/
theorem emitted_ids_not_strictly_increasing :
    emittedIds Unit c1InitMsg 1 = [0, 0] ∧
    ¬ (emittedIds Unit c1InitMsg 1).Pairwise (· < ·) := by decide

/-- C1 (amended): the first emitted envelope (the `init_ok` reply) carries
msg_id 0, and the envelopes emitted after it carry ids 0, 1, 2, … — strictly
increasing among themselves but restarting at 0, because the init reply goes
through a separate IO facade whose sequence counter is discarded while the
node's own facade is created with `seq = 0`. -/
theorem emitted_ids_monotone_after_init (P : Type) (initMsg : Message InitPayload)
    (n : Nat) :
    (emittedIds P initMsg n).head? = some 0 ∧
    (emittedIds P initMsg n).tail = List.range' 0 n ∧
    (emittedIds P initMsg n).tail.Pairwise (· < ·) := by
  refine ⟨rfl, ?_, ?_⟩
  · show sendIds (⟨0, []⟩ : IOState P) n = List.range' 0 n
    exact sendIds_eq n 0 []
  · show (sendIds (⟨0, []⟩ : IOState P) n).Pairwise (· < ·)
    rw [sendIds_eq n 0 []]
    exact pairwise_lt_range' n 0

/-- C2: on a well-formed state, when a pending request's age `now - issued_at`
has reached its timeout, one `rpc_tend` pass returns it in the expired set,
removes its id from the pending table, and — exactly when its retry flag is
set — re-issues a request with the same destination, payload snapshot and
timeout under a fresh id (never a key of the old table) with
`issued_at = now`; every entry of the new table either was already present or
is such a re-issue of a retryable timed-out record. -/
theorem rpc_tend_expired {P : Type} (now : Nat) (s : IOState P) (k : Nat)
    (r : Request P) (hWF : WFP s) (hmem : lookupA k s.pending = some r)
    (hexp : r.timeout ≤ now - r.issued_at) :
    ∃ timedout sleep s', rpc_tend now s = Except.ok (timedout, sleep, s') ∧
      r ∈ timedout ∧
      lookupA r.id s'.pending = none ∧
      (r.retry = true → ∃ k', s.seq ≤ k' ∧ k' ∉ keysA s.pending ∧
          lookupA k' s'.pending =
            some ⟨k', r.dst, r.payload, r.timeout, now, true⟩) ∧
      (∀ k' r', lookupA k' s'.pending = some r' →
          lookupA k' s.pending = some r' ∨
          (r'.retry = true ∧ r'.issued_at = now ∧
           ∃ rt ∈ timedout, rt.retry = true ∧ r'.dst = rt.dst ∧
             r'.payload = rt.payload ∧ r'.timeout = rt.timeout)) := by
  obtain ⟨timedout, sleep, s', hrun, htd, hWF', hle, hgone, hreissue, hchar, hpres⟩ :=
    rpc_tend_spec now s hWF
  have hrmem : r ∈ timedout := by
    rw [htd, List.mem_filter]
    refine ⟨List.mem_map.mpr ⟨(k, r), mem_of_lookupA hmem, rfl⟩, ?_⟩
    simp [expiredB, hexp]
  refine ⟨timedout, sleep, s', hrun, hrmem, hgone r hrmem, ?_, ?_⟩
  · intro hret
    obtain ⟨k', hk'ge, hk'⟩ := hreissue r hrmem hret
    refine ⟨k', hk'ge, ?_, hk'⟩
    intro hkmem
    obtain ⟨w, hw⟩ := mem_keysA_iff.mp hkmem
    have := (wfp_lookup hWF hw).2
    omega
  · intro k' r' h'
    rcases hchar k' r' h' with h0 | ⟨_, a, b, c⟩
    · exact Or.inl h0
    · exact Or.inr ⟨a, b, c⟩

/-- Witness for C2 at a concrete state: one pending retryable request, issued
at 0 with timeout 5, tended at instant 10. -/
theorem rpc_tend_expired_witness :
    ∃ timedout sleep s', rpc_tend 10 c2State = Except.ok (timedout, sleep, s') ∧
      c2Req ∈ timedout ∧
      lookupA c2Req.id s'.pending = none ∧
      (c2Req.retry = true → ∃ k', c2State.seq ≤ k' ∧ k' ∉ keysA c2State.pending ∧
          lookupA k' s'.pending =
            some ⟨k', c2Req.dst, c2Req.payload, c2Req.timeout, 10, true⟩) ∧
      (∀ k' r', lookupA k' s'.pending = some r' →
          lookupA k' c2State.pending = some r' ∨
          (r'.retry = true ∧ r'.issued_at = 10 ∧
           ∃ rt ∈ timedout, rt.retry = true ∧ r'.dst = rt.dst ∧
             r'.payload = rt.payload ∧ r'.timeout = rt.timeout)) :=
  rpc_tend_expired 10 c2State 1 c2Req (by decide) (by decide) (by decide)

/-- C3, code bug: `Timers::fire` is meant to return the minimum remaining time
`interval - (now - last_fire)` over all registrations (the running-minimum
accumulator starts at `Duration::MAX` and the fired branch folds with
`cmp::min`), but the not-yet-due branch overwrites the accumulator instead of
taking the minimum. With a registration 1ns from its deadline followed by one
100ns away, the returned hint is 100, the true minimum is 1, and the dispatch
loop's wait `min (min tender_hint TICK_DURATION) timer_hint` is 100 — past
the earliest timer deadline. -/
theorem timersFire_hint_not_min :
    (timersFire 9 c3Regs).2.2 = 100 ∧
    (c3Regs.map (fun reg => reg.interval - (9 - reg.last_fire))).min? = some 1 ∧
    tickTimeout durMax (timersFire 9 c3Regs).2.2 = 100 ∧
    1 < tickTimeout durMax (timersFire 9 c3Regs).2.2 := by decide

/-- C4: `rpc_still_pending` returns true exactly when the incoming envelope's
`in_reply_to` is present and its value is a key of the pending table. -/
theorem rpc_still_pending_iff {P : Type} (m : Message P) (s : IOState P) :
    rpc_still_pending m s = true ↔
      ∃ k, m.body.in_reply_to = some k ∧ k ∈ keysA s.pending := by
  cases hin : m.body.in_reply_to with
  | none =>
    simp only [rpc_still_pending, hin]
    constructor
    · intro h
      cases h
    · rintro ⟨k, hk, -⟩
      cases hk
  | some k =>
    simp only [rpc_still_pending, hin]
    constructor
    · intro h
      cases hl : lookupA k s.pending with
      | none => rw [hl] at h; cases h
      | some w => exact ⟨k, rfl, mem_keysA_iff.mpr ⟨w, hl⟩⟩
    · rintro ⟨k', hk', hkmem⟩
      cases hk'
      obtain ⟨w, hw⟩ := mem_keysA_iff.mp hkmem
      rw [hw]
      rfl

/-- C5: `rpc_mark_completed` is modelled as a total function (the Rust method
returns `()` and has no error path); it is a no-op when `in_reply_to` is
absent or not a key of the pending table, and applying it twice to the same
reply leaves the same table as applying it once. -/
theorem rpc_mark_completed_noop_idem {P : Type} (m : Message P) (s : IOState P) :
    ((∀ k, m.body.in_reply_to = some k → lookupA k s.pending = none) →
      rpc_mark_completed m s = s) ∧
    rpc_mark_completed m (rpc_mark_completed m s) = rpc_mark_completed m s := by
  constructor
  · intro h
    cases hin : m.body.in_reply_to with
    | none => simp only [rpc_mark_completed, hin]
    | some k =>
      simp only [rpc_mark_completed, hin]
      rw [eraseA_eq_self_of_absent (h k hin)]
  · cases hin : m.body.in_reply_to with
    | none => simp only [rpc_mark_completed, hin]
    | some k =>
      simp only [rpc_mark_completed, hin]
      rw [eraseA_idem]

/-- Witness for C5: a reply to id 5 against a table whose only key is 1. -/
theorem rpc_mark_completed_noop_idem_witness :
    rpc_mark_completed c5Msg c2State = c2State ∧
    rpc_mark_completed c5Msg (rpc_mark_completed c5Msg c2State) =
      rpc_mark_completed c5Msg c2State :=
  ⟨(rpc_mark_completed_noop_idem c5Msg c2State).1
      (by intro k hk; cases hk; rfl),
   (rpc_mark_completed_noop_idem c5Msg c2State).2⟩

/-- C6, counterexample: after the handshake on `n2`, the first two `generate`
messages yield ids `"n2-0"` and `"n2-1"`, not `"n2-1"` and `"n2-2"`: the
`init_ok` reply consumed sequence value 0 of the separate `init_io` facade,
not of the node's own facade, whose counter still starts at 0. -/
theorem unique_ids_counterexample :
    (uniqueIdsGenerate "n2" c6Msg1 (ioAfterInit UIPayload)).1 =
      UIPayload.GenerateOk "n2-0" ∧
    (uniqueIdsGenerate "n2" c6Msg2
        (uniqueIdsGenerate "n2" c6Msg1 (ioAfterInit UIPayload)).2).1 =
      UIPayload.GenerateOk "n2-1" ∧
    (uniqueIdsGenerate "n2" c6Msg1 (ioAfterInit UIPayload)).1 ≠
      UIPayload.GenerateOk "n2-1" := by
  refine ⟨rfl, rfl, ?_⟩
  decide

/-- C6 (amended): after the handshake, the first two `generate` messages
delivered to the unique-IDs handler produce `generate_ok` replies carrying
ids `node_id ++ "-0"` and `node_id ++ "-1"`: the sequence advances by one per
send, but the `init_ok` reply consumed the separate init facade's 0, so the
handler facade starts at 0. -/
theorem unique_ids_first_two (nid : String) (m1 m2 : Message UIPayload) :
    (uniqueIdsGenerate nid m1 (ioAfterInit UIPayload)).1 =
      UIPayload.GenerateOk (nid ++ "-0") ∧
    (uniqueIdsGenerate nid m2 (uniqueIdsGenerate nid m1 (ioAfterInit UIPayload)).2).1 =
      UIPayload.GenerateOk (nid ++ "-1") := by
  constructor
  · show UIPayload.GenerateOk (nid ++ "-" ++ toString (0 : Nat)) = _
    rw [String.append_assoc]
    rfl
  · show UIPayload.GenerateOk (nid ++ "-" ++ toString (1 : Nat)) = _
    rw [String.append_assoc]
    rfl

/-- C7, counterexample: the single-node Kafka variant's `commit_offsets`
plainly overwrites the stored offset: committing 3 over a stored 5 leaves 3,
not the claimed maximum 5. -/
theorem kafka_single_commit_overwrites :
    lookupA "5" (commitOffsetsSingle [("5", 5)] [("5", 3)]) = some 3 ∧
    lookupA "5" (commitOffsetsSingle [("5", 5)] [("5", 3)]) ≠ some 5 := by decide

/-- C7 (amended): for every key of a `commit_offsets` request (whose keys are
distinct, as they come from a map), the multi-node variant stores the maximum
of the currently stored offset and the incoming value (the incoming value
when the key was absent); the single-node variant unconditionally stores the
incoming value. -/
theorem commit_offsets_semantics (store offsets : List (String × Nat))
    (k : String) (v : Nat) (hnd : (offsets.map Prod.fst).Nodup)
    (hmem : (k, v) ∈ offsets) :
    lookupA k (commitOffsetsMulti store offsets) =
      some (match lookupA k store with | some c => Nat.max c v | none => v) ∧
    lookupA k (commitOffsetsSingle store offsets) = some v := by
  revert hnd hmem
  induction offsets generalizing store with
  | nil =>
    intro _ hmem
    cases hmem
  | cons q rest ih =>
    intro hnd hmem
    have hq1 : q.1 ∉ rest.map Prod.fst := (List.nodup_cons.mp hnd).1
    have hnd' : (rest.map Prod.fst).Nodup := (List.nodup_cons.mp hnd).2
    rcases List.mem_cons.mp hmem with he | hm
    · have hk : q.1 = k := by rw [← he]
      have hv : q.2 = v := by rw [← he]
      have habs : ∀ p ∈ rest, p.1 ≠ k := by
        intro p hp e
        exact hq1 (by rw [hk, ← e]; exact List.mem_map_of_mem Prod.fst hp)
      constructor
      · rw [commitOffsetsMulti_cons]
        cases hl : lookupA q.1 store with
        | some c =>
          simp only [hl]
          rw [commitOffsetsMulti_absent habs, hk, hv, lookupA_insert_self]
          have hl' : lookupA k store = some c := by rw [← hk]; exact hl
          rw [hl']
        | none =>
          simp only [hl]
          rw [commitOffsetsMulti_absent habs, hk, hv, lookupA_insert_self]
          have hl' : lookupA k store = none := by rw [← hk]; exact hl
          rw [hl']
      · have hstep : commitOffsetsSingle store (q :: rest) =
            commitOffsetsSingle (insertA q.1 q.2 store) rest := rfl
        rw [hstep, commitOffsetsSingle_absent habs, hk, hv, lookupA_insert_self]
    · have hkq : k ≠ q.1 := by
        intro e
        exact hq1 (by rw [← e]; exact List.mem_map_of_mem Prod.fst hm)
      constructor
      · rw [commitOffsetsMulti_cons]
        cases hl : lookupA q.1 store with
        | some c =>
          simp only [hl]
          rw [(ih (insertA q.1 (Nat.max c q.2) store) hnd' hm).1,
            lookupA_insert_ne hkq]
        | none =>
          simp only [hl]
          rw [(ih (insertA q.1 q.2 store) hnd' hm).1, lookupA_insert_ne hkq]
      · have hstep : commitOffsetsSingle store (q :: rest) =
            commitOffsetsSingle (insertA q.1 q.2 store) rest := rfl
        rw [hstep, (ih (insertA q.1 q.2 store) hnd' hm).2]

/-- Witness for C7 at a concrete store and request: store holds 9 for "k",
the request commits 7; multi keeps 9, single overwrites to 7. -/
theorem commit_offsets_semantics_witness :
    lookupA "k" (commitOffsetsMulti [("k", 9)] [("k", 7)]) = some 9 ∧
    lookupA "k" (commitOffsetsSingle [("k", 9)] [("k", 7)]) = some 7 := by
  have h := commit_offsets_semantics [("k", 9)] [("k", 7)] "k" 7 (by decide) (by decide)
  exact ⟨h.1, h.2⟩

/-- C8: processing a `txn` request applies writes to the store immediately and
answers each read op at position `i` with the value the key has after all
earlier ops of the same transaction were applied (`none` when absent); write
ops are echoed unchanged. -/
theorem txn_semantics (store : List (Nat × Nat)) (ops : List Op) (i : Nat)
    (op : Op) (h : ops[i]? = some op) :
    (txnGo store ops).1[i]? = some (opResult store ops i op) := by
  induction ops generalizing store i with
  | nil => simp at h
  | cons op0 rest ih =>
    cases i with
    | zero =>
      rw [List.getElem?_cons_zero, Option.some.injEq] at h
      subst h
      cases op0 with
      | read key w =>
        show (Op.read key (lookupA key store) :: (txnGo store rest).1)[0]? = _
        rw [List.getElem?_cons_zero]
        rfl
      | write key w =>
        show (Op.write key w :: (txnGo (insertA key w store) rest).1)[0]? = _
        rw [List.getElem?_cons_zero]
        rfl
    | succ i =>
      have h' : rest[i]? = some op := by rwa [List.getElem?_cons_succ] at h
      cases op0 with
      | read key w =>
        show (Op.read key (lookupA key store) :: (txnGo store rest).1)[i + 1]? = _
        rw [List.getElem?_cons_succ, ih store i h']
        cases op with
        | read k2 w2 =>
          simp only [opResult]
          rw [List.take_succ_cons, List.foldl_cons]
          rfl
        | write k2 w2 => rfl
      | write key w =>
        show (Op.write key w :: (txnGo (insertA key w store) rest).1)[i + 1]? = _
        rw [List.getElem?_cons_succ, ih (insertA key w store) i h']
        cases op with
        | read k2 w2 =>
          simp only [opResult]
          rw [List.take_succ_cons, List.foldl_cons]
          rfl
        | write k2 w2 => rfl

/-- Witness for C8 at the spec's example: on an empty store,
`[["w",1,5],["r",1,null],["r",2,null]]` answers the read of key 1 at position
1 with 5 (the value written earlier in the same transaction). -/
theorem txn_semantics_witness :
    c8Ops[1]? = some (Op.read 1 none) ∧
    (txnGo [] c8Ops).1[1]? = some (Op.read 1 (some 5)) := by
  refine ⟨by decide, ?_⟩
  have h := txn_semantics [] c8Ops 1 (Op.read 1 none) (by decide)
  rw [h]
  rfl

/-- C9: the pending-table invariant — distinct keys, each stored record's `id`
equal to its key, and every key an already-allocated sequence number — is
preserved by `rpc_request` and `rpc_mark_completed`, and under it `rpc_tend`
always returns `Ok` (the `bail!` branch is unreachable: every id taken from
the timed-out snapshot is still present when removed) with a well-formed
resulting table. -/
theorem pending_table_invariants {P : Type} (now : Nat) (m : Message P)
    (dst : String) (payload : P) (timeout : Nat) (retry : Bool) (s : IOState P)
    (h : WFP s) :
    WFP (rpc_request now dst payload timeout retry s).2 ∧
    WFP (rpc_mark_completed m s) ∧
    ∃ out, rpc_tend now s = Except.ok out ∧ WFP out.2.2 := by
  refine ⟨wfp_rpc_request h now dst payload timeout retry, ?_, ?_⟩
  · cases hin : m.body.in_reply_to with
    | none => simpa only [rpc_mark_completed, hin] using h
    | some k =>
      simp only [rpc_mark_completed, hin]
      exact wfp_erase h k
  · obtain ⟨timedout, sleep, s', hrun, -, hWF', -, -, -, -, -⟩ := rpc_tend_spec now s h
    exact ⟨(timedout, sleep, s'), hrun, hWF'⟩

/-- Witness for C9 at a concrete well-formed state. -/
theorem pending_table_invariants_witness :
    WFP (rpc_request 10 "n4" () 7 false c2State).2 ∧
    WFP (rpc_mark_completed c5Msg c2State) ∧
    ∃ out, rpc_tend 10 c2State = Except.ok out ∧ WFP out.2.2 :=
  pending_table_invariants 10 c5Msg "n4" () 7 false c2State (by decide)

/-- C10: recording the same observation twice — `GCounter::add` called again
with an identical (origin node, message id, delta) triple, as happens when an
`add` or `replicate` message is redelivered — leaves the counter state, and
hence the total returned by `read`, unchanged. -/
theorem gcAdd_idempotent (st : List (String × List (Nat × Nat))) (node : String)
    (id v : Nat) :
    gcAdd (gcAdd st node id v) node id v = gcAdd st node id v ∧
    gcTotal (gcAdd (gcAdd st node id v) node id v) = gcTotal (gcAdd st node id v) := by
  have key : gcAdd (gcAdd st node id v) node id v = gcAdd st node id v := by
    cases h : lookupA node st with
    | none =>
      have h1 : gcAdd st node id v = st ++ [(node, [(id, v)])] := by
        simp only [gcAdd, h]
        rfl
      rw [h1]
      have h2 : lookupA node (st ++ [(node, [(id, v)])]) = some [(id, v)] :=
        lookupA_append_absent h
      simp only [gcAdd, h2]
      rw [setInsert_of_mem (List.mem_cons_self _ _)]
      unfold updateA
      rw [List.map_append]
      have hst : st.map (fun p => if p.1 = node then (node, [(id, v)]) else p) = st := by
        have hcong : ∀ p ∈ st, (if p.1 = node then (node, [(id, v)]) else p) = p := by
          intro p hp
          rw [if_neg (lookupA_eq_none_iff.mp h p hp)]
        rw [List.map_congr_left hcong, List.map_id']
      rw [hst]
      simp
    | some counter =>
      have h1 : gcAdd st node id v = updateA node (setInsert (id, v) counter) st := by
        simp only [gcAdd, h]
      rw [h1]
      have h2 : lookupA node (updateA node (setInsert (id, v) counter) st) =
          some (setInsert (id, v) counter) := lookupA_updateA_self h
      simp only [gcAdd, h2]
      rw [setInsert_of_mem (mem_setInsert_self _ _), updateA_idem]
  exact ⟨key, by rw [key]⟩

end GossipGlomers
